import Mathlib

/-!
Verification of the client-side mining/audit agent (day6: mine_fast.py and
check_tx_depth.py) against its natural-language specification.

The embedding models the remote ledger service as oracle functions (each
HTTP read/write is one oracle lookup, indexed by a call counter where the
order of calls matters), Python dicts destined for `json.dumps` as a JSON
value type with insertion-ordered object fields, and the unbounded retry
loops of the source with an explicit fuel parameter (`none` = fuel ran out,
no decision).  Exceptions raised by the HTTP helpers (`raise_for_status`,
transport faults of `requests.get`/`requests.post`) are modelled with
`Except Unit`: `Except.error ()` is an uncaught exception propagating out
of the function under study.
-/

/-- Transaction record as the agent sees it: `tx.get("src")`,
`tx.get("dst")` and `tx.get("nonce")` are `Option`-valued because a missing
key yields Python `None`. -/
structure Tx where
  src : Option String
  dst : Option String
  nonce : Option String
  deriving DecidableEq

/-- Block record: the fields the two scripts read or construct
(`index`, `prev_hash`, `nonce`, `txs`, `nice`).  `blk.get("prev_hash")` and
`blk.get("nice")` may be absent, `blk.get("txs", [])` defaults to `[]`
(an absent list is the empty list here). -/
structure Block where
  index : Int
  prev_hash : Option String
  nonce : Nat
  txs : List Tx
  nice : Option String
  deriving DecidableEq

/-- JSON values as `json.dumps` consumes them; an object keeps its fields in
insertion order (Python dict order), which `sort_keys=True` then sorts. -/
inductive Json where
  | null : Json
  | str : String → Json
  | num : Int → Json
  | arr : List Json → Json
  | obj : List (String × Json) → Json

/-! ## SHA-256 (hashlib.sha256(...).hexdigest()) over a byte list -/

/-- Truncate to a 32-bit word. -/
def w32 (n : Nat) : Nat := n % 4294967296

/-- Rotate a 32-bit word right by k bits. -/
def rotr (k n : Nat) : Nat := w32 ((n >>> k) ||| (n <<< (32 - k)))

/-- SHA-256 round constants (FIPS 180-4, the fractional parts of the cube
roots of the first 64 primes), written in decimal. -/
def sha256K : List Nat :=
  [1116352408, 1899447441, 3049323471, 3921009573, 961987163, 1508970993,
   2453635748, 2870763221, 3624381080, 310598401, 607225278, 1426881987,
   1925078388, 2162078206, 2614888103, 3248222580, 3835390401, 4022224774,
   264347078, 604807628, 770255983, 1249150122, 1555081692, 1996064986,
   2554220882, 2821834349, 2952996808, 3210313671, 3336571891, 3584528711,
   113926993, 338241895, 666307205, 773529912, 1294757372, 1396182291,
   1695183700, 1986661051, 2177026350, 2456956037, 2730485921, 2820302411,
   3259730800, 3345764771, 3516065817, 3600352804, 4094571909, 275423344,
   430227734, 506948616, 659060556, 883997877, 958139571, 1322822218,
   1537002063, 1747873779, 1955562222, 2024104815, 2227730452, 2361852424,
   2428436474, 2756734187, 3204031479, 3329325298]

/-- SHA-256 initial hash state (fractional parts of the square roots of the
first 8 primes), written in decimal. -/
def sha256Init : List Nat :=
  [1779033703, 3144134277, 1013904242, 2773480762,
   1359893119, 2600822924, 528734635, 1541459225]

/-- Big-endian 8-byte encoding of a 64-bit length. -/
def be64 (n : Nat) : List Nat :=
  [(n >>> 56) % 256, (n >>> 48) % 256, (n >>> 40) % 256, (n >>> 32) % 256,
   (n >>> 24) % 256, (n >>> 16) % 256, (n >>> 8) % 256, n % 256]

/-- SHA-256 padding: append 0x80, zero bytes to 56 mod 64, then the bit
length big-endian. -/
def sha256Pad (msg : List Nat) : List Nat :=
  msg ++ [0x80] ++ List.replicate ((119 - (msg.length % 64)) % 64) 0
      ++ be64 (msg.length * 8)

/-- Split a byte list into 64-byte chunks (`fuel` bounds the chunk count;
callers pass the length, which is always enough). -/
def chunks64 : Nat → List Nat → List (List Nat)
  | 0, _ => []
  | _ + 1, [] => []
  | fuel + 1, l => l.take 64 :: chunks64 fuel (l.drop 64)

/-- Pack bytes into big-endian 32-bit words. -/
def toWords : List Nat → List Nat
  | a :: b :: c :: d :: rest =>
      ((a <<< 24) ||| (b <<< 16) ||| (c <<< 8) ||| d) :: toWords rest
  | _ => []

/-- Extend 16 message words to the 64-entry message schedule. -/
def sha256Schedule (ws : List Nat) : List Nat :=
  (List.range 48).foldl
    (fun acc _ =>
      let n := acc.length
      let s0 :=
        let x := acc.getD (n - 15) 0
        (rotr 7 x) ^^^ (rotr 18 x) ^^^ (x >>> 3)
      let s1 :=
        let x := acc.getD (n - 2) 0
        (rotr 17 x) ^^^ (rotr 19 x) ^^^ (x >>> 10)
      acc ++ [w32 (acc.getD (n - 16) 0 + s0 + acc.getD (n - 7) 0 + s1)])
    ws

/-- One SHA-256 compression round. -/
def sha256Round (st : List Nat) (kw : Nat × Nat) : List Nat :=
  let a := st.getD 0 0
  let b := st.getD 1 0
  let c := st.getD 2 0
  let d := st.getD 3 0
  let e := st.getD 4 0
  let f := st.getD 5 0
  let g := st.getD 6 0
  let h := st.getD 7 0
  let s1 := (rotr 6 e) ^^^ (rotr 11 e) ^^^ (rotr 25 e)
  let ch := (e &&& f) ^^^ ((4294967295 - e) &&& g)
  let t1 := w32 (h + s1 + ch + kw.1 + kw.2)
  let s0 := (rotr 2 a) ^^^ (rotr 13 a) ^^^ (rotr 22 a)
  let mj := (a &&& b) ^^^ (a &&& c) ^^^ (b &&& c)
  let t2 := w32 (s0 + mj)
  [w32 (t1 + t2), a, b, c, w32 (d + t1), e, f, g]

/-- Compress one 64-byte chunk into the running hash state. -/
def sha256Chunk (st : List Nat) (chunk : List Nat) : List Nat :=
  let ws := sha256Schedule (toWords chunk)
  let out := (sha256K.zip ws).foldl sha256Round st
  List.zipWith (fun x y => w32 (x + y)) st out

/-- Hex digit character for a nibble. -/
def hexDigit (n : Nat) : Char :=
  if n < 10 then Char.ofNat ('0'.toNat + n) else Char.ofNat ('a'.toNat + n - 10)

/-- Lowercase 8-hex-character rendering of one 32-bit word. -/
def hex8 (x : Nat) : List Char :=
  (List.range 8).map (fun i => hexDigit ((x >>> ((7 - i) * 4)) % 16))

/-- SHA-256 hex digest of a byte list, as `hexdigest()` returns it. -/
def sha256hex (msg : List Nat) : String :=
  let padded := sha256Pad msg
  let final := (chunks64 padded.length padded).foldl sha256Chunk sha256Init
  String.mk (final.foldr (fun x acc => hex8 x ++ acc) [])

/-! ## Canonical JSON serialization (json.dumps with sort_keys=True and
separators=(",", ":")) -/

/-- Four-hex-digit rendering used by the \u escapes (json.dumps emits
lowercase hex there). -/
def uHex4 (n : Nat) : List Char :=
  (List.range 4).map (fun i => hexDigit ((n >>> ((3 - i) * 4)) % 16))

/-- Escape one character exactly as json.dumps (default ensure_ascii=True)
does inside a string literal. -/
def escapeChar (c : Char) : List Char :=
  let n := c.toNat
  if n = 34 then ['\\', '"']
  else if n = 92 then ['\\', '\\']
  else if n = 8 then ['\\', 'b']
  else if n = 9 then ['\\', 't']
  else if n = 10 then ['\\', 'n']
  else if n = 12 then ['\\', 'f']
  else if n = 13 then ['\\', 'r']
  else if n < 32 then '\\' :: 'u' :: uHex4 n
  else if n < 127 then [c]
  else if n < 65536 then '\\' :: 'u' :: uHex4 n
  else
    let m := n - 65536
    ('\\' :: 'u' :: uHex4 (55296 + m / 1024)) ++ ('\\' :: 'u' :: uHex4 (56320 + m % 1024))

/-- A JSON string literal: quotes around the escaped characters. -/
def jsonStringLit (s : String) : String :=
  "\"" ++ String.mk (s.data.foldr (fun c acc => escapeChar c ++ acc) []) ++ "\""

/-- Decimal rendering of a Python int. -/
def intStr (i : Int) : String :=
  if i < 0 then "-" ++ String.mk (Nat.toDigits 10 i.natAbs)
  else String.mk (Nat.toDigits 10 i.natAbs)

/-- Ordering used by sort_keys=True: compare fields by key. -/
def keyLe (a b : String × String) : Prop := a.1 ≤ b.1

instance : DecidableRel keyLe := fun a b => inferInstanceAs (Decidable (a.1 ≤ b.1))

instance : IsTotal (String × String) keyLe := ⟨fun a b => le_total a.1 b.1⟩

instance : IsTrans (String × String) keyLe := ⟨fun _ _ _ h1 h2 => le_trans h1 h2⟩

mutual

/-- Compact canonical serialization: json.dumps(v, sort_keys=True,
separators=(",", ":")).  Object fields are rendered and then sorted by key;
since sorting only permutes (key, rendered value) pairs, this equals
sorting the fields first and rendering afterwards. -/
def json_dumps : Json → String
  | .null => "null"
  | .str s => jsonStringLit s
  | .num i => intStr i
  | .arr xs => "[" ++ String.intercalate "," (dumpElems xs) ++ "]"
  | .obj fs =>
      "\x7b" ++
        String.intercalate ","
          ((List.insertionSort keyLe (dumpFields fs)).map
            (fun kv => jsonStringLit kv.1 ++ ":" ++ kv.2)) ++
      "\x7d"

/-- Serialize each element of a JSON array. -/
def dumpElems : List Json → List String
  | [] => []
  | x :: xs => json_dumps x :: dumpElems xs

/-- Serialize the value of each field, keeping keys and insertion order. -/
def dumpFields : List (String × Json) → List (String × String)
  | [] => []
  | (k, v) :: fs => (k, json_dumps v) :: dumpFields fs

end

/-- UTF-8 encoding of one Unicode scalar value. -/
def utf8Char (c : Char) : List Nat :=
  let n := c.toNat
  if n < 128 then [n]
  else if n < 2048 then [192 ||| (n >>> 6), 128 ||| (n &&& 63)]
  else if n < 65536 then
    [224 ||| (n >>> 12), 128 ||| ((n >>> 6) &&& 63), 128 ||| (n &&& 63)]
  else
    [240 ||| (n >>> 18), 128 ||| ((n >>> 12) &&& 63),
     128 ||| ((n >>> 6) &&& 63), 128 ||| (n &&& 63)]

/-- `str.encode()`: UTF-8 bytes of a string. -/
def utf8Encode (s : String) : List Nat :=
  s.data.foldr (fun c acc => utf8Char c ++ acc) []

/-- hash_block (mine_fast.py lines 38-40): canonical serialization with
sorted keys and compact separators, then the SHA-256 hex digest. -/
def hash_block (block : Json) : String :=
  sha256hex (utf8Encode (json_dumps block))

/-! ## Proof-of-work difficulty (mine_fast.py lines 21-23) -/

/-- Difficulty in bits. -/
def DIFFICULTY : Nat := 16

/-- The zero hex prefix a digest must carry: "0" * (DIFFICULTY // 4). -/
def DIFFICULTY_PREFIX : String := String.mk (List.replicate (DIFFICULTY / 4) '0')

/-- Head recheck cadence of the PoW loop (mine_fast.py line 23). -/
def RECHECK_INTERVAL : Nat := 512

/-- Python str.startswith. -/
def strStartsWith (s p : String) : Bool := p.data.isPrefixOf s.data

/-- The difficulty check on a candidate digest
(mine_fast.py line 100: h.startswith(DIFFICULTY_PREFIX)). -/
def powAccepts (h : String) : Bool := strStartsWith h DIFFICULTY_PREFIX

/-! ## The Mining Orchestrator (mine_fast.py, mine_empty_with_nice) -/

/-- JSON rendering of a transaction dict (only the fields this client ever
reads are modelled; mined blocks below always carry an empty list, so no
claim depends on this rendering). -/
def txJson (t : Tx) : Json :=
  .obj ((match t.src with | some s => [("src", Json.str s)] | none => []) ++
        (match t.dst with | some d => [("dst", Json.str d)] | none => []) ++
        (match t.nonce with | some n => [("nonce", Json.str n)] | none => []))

/-- JSON rendering of a block record, field insertion order as in the dict
literal of mine_fast.py lines 88-94 (json.dumps sorts the keys anyway). -/
def blockJson (b : Block) : Json :=
  .obj [("index", .num b.index),
        ("prev_hash", match b.prev_hash with | some h => .str h | none => .null),
        ("nonce", .num (b.nonce : Int)),
        ("txs", .arr (b.txs.map txJson)),
        ("nice", match b.nice with | some w => .str w | none => .null)]

/-- The remote ledger service as the orchestrator's oracles.  `txpool k` is
the k-th GET /txpool result (none = the request raised: transport fault or
raise_for_status); `blockIndexOf h` is the index field of GET /block?hash=h
(none = the request raised or the reply lacked the field, a KeyError);
`post k` is the k-th POST /block status code (none = requests.post raised). -/
structure MineEnv where
  txpool : Nat → Option (String × List Tx)
  blockIndexOf : String → Option Int
  post : Nat → Option Nat

/-- The block template built from a clean snapshot (mine_fast.py lines
88-94): parent's index + 1, prev_hash = the snapshot's head hash, an EMPTY
transaction list and nice = who. -/
def buildTemplate (who head_hash : String) (parent_index : Int) : Block :=
  { index := parent_index + 1, prev_hash := some head_hash,
    nonce := 0, txs := [], nice := some who }

/-- Does any pending transaction touch `who` (mine_fast.py line 80)? -/
def touchesWho (who : String) (txs : List Tx) : Bool :=
  txs.any (fun tx => tx.src == some who || tx.dst == some who)

/-- The inner PoW loop (mine_fast.py lines 95-107): starting from `nonce`,
hash the template at each nonce; break with the digest when it meets the
difficulty prefix; every RECHECK_INTERVAL nonces re-read the txpool head
and break when it moved.  `tc` counts GET /txpool calls already made, so
the staleness reads consume `env.txpool tc`, `env.txpool (tc+1)`, ….
Returns the digest of the last hashed nonce, the Python `nonce` variable at
the break, and the txpool call counter after the loop; `none` = fuel ran
out, `Except.error ()` = a staleness read raised. -/
def powLoop (block : Block) (base_head : String) (env : MineEnv) :
    Nat → Nat → Nat → Option (Except Unit (String × Nat × Nat))
  | 0, _, _ => none
  | fuel + 1, nonce, tc =>
    let h := hash_block (blockJson { block with nonce := nonce })
    if powAccepts h then some (.ok (h, nonce, tc))
    else
      if (nonce + 1) % RECHECK_INTERVAL = 0 then
        match env.txpool tc with
        | none => some (.error ())
        | some (latest_head, _) =>
          if latest_head ≠ base_head then some (.ok (h, nonce + 1, tc + 1))
          else powLoop block base_head env fuel (nonce + 1) (tc + 1)
      else powLoop block base_head env fuel (nonce + 1) tc

/-- One PoW search attempt (mine_fast.py lines 95-110): the inner loop,
then the one final staleness re-read; `some blk` = the block to submit,
`none` = discard the attempt and restart from a fresh snapshot (the
`continue` at line 110).  Also returns the txpool call counter after the
final read. -/
def powAttempt (block : Block) (base_head : String) (env : MineEnv)
    (ifuel tc : Nat) : Option (Except Unit (Option Block × Nat)) :=
  match powLoop block base_head env ifuel 0 tc with
  | none => none
  | some (.error ()) => some (.error ())
  | some (.ok (h, nonce, tc1)) =>
    match env.txpool tc1 with
    | none => some (.error ())
    | some (latest_head, _) =>
      if latest_head ≠ base_head ∨ powAccepts h = false
      then some (.ok (none, tc1 + 1))
      else some (.ok (some { block with nonce := nonce }, tc1 + 1))

/-- mine_empty_with_nice (mine_fast.py lines 75-114): take a txpool
snapshot; if any pending transaction touches `who`, sleep briefly and
re-snapshot; otherwise look up the parent index, build the empty marked
template and run one PoW attempt; on a discarded attempt restart; on a
found block POST it, returning True on status 200 and retrying after a
short sleep otherwise.  `fuel` bounds outer iterations, `ifuel` each inner
search, `tc`/`pc` count txpool reads and posts already made.  `none` = fuel
ran out; `some (Except.error ())` = an HTTP helper raised and the exception
escaped the function. -/
def mine_empty_with_nice (who : String) (env : MineEnv) (ifuel : Nat) :
    Nat → Nat → Nat → Option (Except Unit Bool)
  | 0, _, _ => none
  | fuel + 1, tc, pc =>
    match env.txpool tc with
    | none => some (.error ())
    | some (head_hash, txs) =>
      if touchesWho who txs then
        mine_empty_with_nice who env ifuel fuel (tc + 1) pc
      else
        match env.blockIndexOf head_hash with
        | none => some (.error ())
        | some parent_index =>
          match powAttempt (buildTemplate who head_hash parent_index)
              head_hash env ifuel (tc + 1) with
          | none => none
          | some (.error ()) => some (.error ())
          | some (.ok (none, tc')) =>
            mine_empty_with_nice who env ifuel fuel tc' pc
          | some (.ok (some _, tc')) =>
            match env.post pc with
            | none => some (.error ())
            | some status =>
              if status = 200 then some (.ok true)
              else mine_empty_with_nice who env ifuel fuel tc' (pc + 1)

/-- Every staleness read in the txpool-call window [lo, hi] succeeded and
reported `base`. -/
def checksPassed (env : MineEnv) (base : String) (lo hi : Nat) : Bool :=
  (List.range' lo (hi + 1 - lo)).all
    (fun j => match env.txpool j with
      | some p => p.1 == base
      | none => false)

/-! ## The Chain Reader (get_chain_from_head, identical in mine_fast.py
lines 46-62 and check_tx_depth.py lines 32-48) -/

/-- The backward-traversal loop: follow prev_hash pointers, appending each
fetched block; stop at a missing pointer (genesis), at a failed or empty
fetch, or when fuel runs out.  `fetch h` models GET /block?hash=h: `none`
covers both a raised request and an absent/empty "block" field. -/
def chainLoop (fetch : String → Option Block) :
    Nat → Option String → List Block → List Block
  | 0, _, chain => chain
  | _ + 1, none, chain => chain
  | fuel + 1, some h, chain =>
    match fetch h with
    | none => chain
    | some blk => chainLoop fetch fuel blk.prev_hash (chain ++ [blk])

/-- get_chain_from_head: start from the fetched head block, walk backward,
then reverse so index order is ascending (the head pair comes from
GET /block, modelled as the `head_block` argument). -/
def get_chain_from_head (fetch : String → Option Block) (head_block : Block)
    (fuel : Nat) : List Block :=
  (chainLoop fetch fuel head_block.prev_hash [head_block]).reverse

/-- The fetch map resolves `cur` to exactly the blocks `bs` (newest first),
every fetch succeeding, ending at a block with no prev_hash (genesis). -/
def reachesB (fetch : String → Option Block) :
    Option String → List Block → Bool
  | none, bs => bs.isEmpty
  | some _, [] => false
  | some h, b :: bs => decide (fetch h = some b) && reachesB fetch b.prev_hash bs

/-- The fetch map resolves `cur` to the blocks `bs` (newest first) and then
the next backward fetch fails (or returns no block). -/
def reachesFailB (fetch : String → Option Block) :
    Option String → List Block → Bool
  | none, _ => false
  | some h, [] => decide (fetch h = none)
  | some h, b :: bs => decide (fetch h = some b) && reachesFailB fetch b.prev_hash bs

/-! ## The Confirmation Auditor (check_tx_depth.py main, lines 55-73) -/

/-- The scan of check_tx_depth.py lines 60-67: the index of the first block
(in chain order) containing a transaction whose nonce equals the query. -/
def findTxBlock : List Block → String → Option Int
  | [], _ => none
  | blk :: rest, n =>
    if blk.txs.any (fun tx => tx.nonce == some n) then some blk.index
    else findTxBlock rest n

/-- checkDepth: given the head index (first GET /block), the reconstructed
chain and the audited nonce, report (block index, head index,
confirmations = head index - block index), or none when the nonce is
absent (check_tx_depth.py lines 69-73). -/
def checkDepth (head_index : Int) (chain : List Block) (n : String) :
    Option (Int × Int × Int) :=
  match findTxBlock chain n with
  | none => none
  | some tx_block_index =>
    some (tx_block_index, head_index, head_index - tx_block_index)

/-! ## Strict key order (used to show the sorted field list is unique) -/

/-- Strictly increasing keys. -/
def keyLt (a b : String × String) : Prop := a.1 < b.1

instance : IsAntisymm (String × String) keyLt :=
  ⟨fun _ _ h1 h2 => absurd h2 (lt_asymm h1)⟩

/-! ## Concrete fixtures for the witnesses -/

/-- A chain-read block with the given index, backward pointer and
transactions. -/
def cBlock (i : Int) (ph : Option String) (txs : List Tx) : Block :=
  { index := i, prev_hash := ph, nonce := 0, txs := txs, nice := none }

/-- A plain transaction between third parties carrying nonce `n`. -/
def exTx (n : String) : Tx :=
  { src := some "alice", dst := some "bob", nonce := some n }

/-- A six-block chain B0..B5 whose only transaction with nonce "n1" sits in
B2. -/
def auditChain : List Block :=
  [cBlock 0 none [], cBlock 1 (some "g0") [],
   cBlock 2 (some "g1") [exTx "n1"], cBlock 3 (some "g2") [exTx "n2"],
   cBlock 4 (some "g3") [], cBlock 5 (some "g4") []]

/-- Genesis of the three-block witness chain. -/
def wB0 : Block := cBlock 0 none []

/-- Middle block of the witness chain, stored under hash "h1". -/
def wB1 : Block := cBlock 1 (some "h0") []

/-- Head of the witness chain. -/
def wB2 : Block := cBlock 2 (some "h1") []

/-- Ledger lookup for the witness chain: every fetch succeeds. -/
def wFetch : String → Option Block :=
  fun h => if h = "h0" then some wB0 else if h = "h1" then some wB1 else none

/-- Ledger lookup where the fetch of the genesis block fails. -/
def wFetchFail : String → Option Block :=
  fun h => if h = "h1" then some wB1 else none

/-- A pending transaction touching the target identity "hacker". -/
def wTaintTx : Tx :=
  { src := some "hacker", dst := some "elf", nonce := some "t1" }

/-- Environment whose first snapshot is tainted and whose second snapshot
read raises. -/
def wTaintEnv : MineEnv :=
  { txpool := fun k => if k = 0 then some ("H0", [wTaintTx]) else none,
    blockIndexOf := fun _ => some 3,
    post := fun _ => some 200 }

/-- Environment where every pool-snapshot fetch raises (a transient
transport fault). -/
def wFaultEnv : MineEnv :=
  { txpool := fun _ => none,
    blockIndexOf := fun _ => some 3,
    post := fun _ => some 200 }

/-- One object field, "index": 7. -/
def jsonF1 : String × Json := ("index", Json.num 7)

/-- One object field, "nice": "hacker". -/
def jsonF2 : String × Json := ("nice", Json.str "hacker")

/-! ## Theorems -/

/-- When the fetch map resolves `cur` to exactly `bs` with every fetch
succeeding, the traversal loop appends exactly `bs`. -/
theorem chainLoop_of_reaches (fetch : String → Option Block) :
    ∀ (bs : List Block) (cur : Option String) (chain : List Block) (fuel : Nat),
      reachesB fetch cur bs = true → bs.length ≤ fuel →
      chainLoop fetch fuel cur chain = chain ++ bs := by
  intro bs
  induction bs with
  | nil =>
    intro cur chain fuel hr _
    cases cur with
    | none => cases fuel <;> simp [chainLoop]
    | some h => simp [reachesB] at hr
  | cons b rest ih =>
    intro cur chain fuel hr hlen
    cases cur with
    | none => simp [reachesB] at hr
    | some h =>
      simp only [reachesB, Bool.and_eq_true, decide_eq_true_eq] at hr
      obtain ⟨hf, hr'⟩ := hr
      cases fuel with
      | zero => simp at hlen
      | succ f =>
        have hlen' : rest.length ≤ f := by simp at hlen; omega
        simp only [chainLoop, hf]
        rw [ih b.prev_hash (chain ++ [b]) f hr' hlen']
        simp

/-- When the traversal hits a failed (or empty) fetch after collecting
`bs`, the loop stops with exactly `bs` appended. -/
theorem chainLoop_of_reachesFail (fetch : String → Option Block) :
    ∀ (bs : List Block) (cur : Option String) (chain : List Block) (fuel : Nat),
      reachesFailB fetch cur bs = true → bs.length < fuel →
      chainLoop fetch fuel cur chain = chain ++ bs := by
  intro bs
  induction bs with
  | nil =>
    intro cur chain fuel hr hlen
    cases cur with
    | none => simp [reachesFailB] at hr
    | some h =>
      simp only [reachesFailB, decide_eq_true_eq] at hr
      cases fuel with
      | zero => omega
      | succ f => simp [chainLoop, hr]
  | cons b rest ih =>
    intro cur chain fuel hr hlen
    cases cur with
    | none => simp [reachesFailB] at hr
    | some h =>
      simp only [reachesFailB, Bool.and_eq_true, decide_eq_true_eq] at hr
      obtain ⟨hf, hr'⟩ := hr
      cases fuel with
      | zero => omega
      | succ f =>
        have hlen' : rest.length < f := by simp at hlen; omega
        simp only [chainLoop, hf]
        rw [ih b.prev_hash (chain ++ [b]) f hr' hlen']
        simp

/-- C6: for a linear sequence of blocks B0 (genesis, no prev_hash) through
Bn (head) connected by prev_hash pointers, with every fetch succeeding
(reachesB) and enough fuel, get_chain_from_head returns exactly those
blocks oldest first; with the linked blocks' indices strictly ascending,
the returned list is strictly ascending in index and has no duplicates. -/
theorem chain_ordering (fetch : String → Option Block) (rest : List Block)
    (head_block : Block) (fuel : Nat)
    (hreach : reachesB fetch head_block.prev_hash rest.reverse = true)
    (hfuel : rest.length ≤ fuel)
    (hasc : List.Chain' (fun a b => a.index < b.index) (rest ++ [head_block])) :
    get_chain_from_head fetch head_block fuel = rest ++ [head_block] ∧
    List.Chain' (fun a b => a.index < b.index)
      (get_chain_from_head fetch head_block fuel) ∧
    (get_chain_from_head fetch head_block fuel).Nodup := by
  have h1 : get_chain_from_head fetch head_block fuel = rest ++ [head_block] := by
    unfold get_chain_from_head
    rw [chainLoop_of_reaches fetch rest.reverse head_block.prev_hash
      [head_block] fuel hreach (by simpa using hfuel)]
    simp
  refine ⟨h1, by rw [h1]; exact hasc, ?_⟩
  rw [h1]
  haveI : IsTrans Block (fun a b => a.index < b.index) :=
    ⟨fun _ _ _ hab hbc => lt_trans hab hbc⟩
  have hp := (List.chain'_iff_pairwise).mp hasc
  exact hp.imp (fun hlt he => by rw [he] at hlt; exact lt_irrefl _ hlt)

/-- C6 witness: a concrete three-block chain is returned oldest first,
ascending, without duplicates. -/
theorem chain_ordering_witness :
    get_chain_from_head wFetch wB2 2 = [wB0, wB1] ++ [wB2] ∧
    List.Chain' (fun a b => a.index < b.index) (get_chain_from_head wFetch wB2 2) ∧
    (get_chain_from_head wFetch wB2 2).Nodup :=
  chain_ordering wFetch [wB0, wB1] wB2 2 (by decide) (by decide)
    (by norm_num [List.chain'_cons, List.chain'_singleton, wB0, wB1, wB2, cBlock])

/-- C7: when the backward fetch of block Bk fails (or returns an empty
result) after blocks Bk+1..Bn-1 were fetched, get_chain_from_head returns
exactly the already-fetched suffix oldest first (with the head), not an
error. -/
theorem truncation_tolerance (fetch : String → Option Block) (bs : List Block)
    (head_block : Block) (fuel : Nat)
    (hreach : reachesFailB fetch head_block.prev_hash bs = true)
    (hfuel : bs.length < fuel) :
    get_chain_from_head fetch head_block fuel = bs.reverse ++ [head_block] := by
  unfold get_chain_from_head
  rw [chainLoop_of_reachesFail fetch bs head_block.prev_hash
    [head_block] fuel hreach hfuel]
  simp

/-- C7 witness: with the fetch of the genesis block failing, the
reconstructed chain is exactly the fetched suffix [B1, B2]. -/
theorem truncation_tolerance_witness :
    get_chain_from_head wFetchFail wB2 2 = [wB1].reverse ++ [wB2] :=
  truncation_tolerance wFetchFail [wB1] wB2 2 (by decide) (by decide)

/-- The scan position found by findTxBlock: the chain splits at the first
block containing a matching transaction. -/
theorem findTxBlock_split :
    ∀ (chain : List Block) (n : String) (i : Int),
      findTxBlock chain n = some i →
      ∃ pre blk suf, chain = pre ++ blk :: suf ∧ i = blk.index ∧
        blk.txs.any (fun tx => tx.nonce == some n) = true ∧
        ∀ b ∈ pre, b.txs.any (fun tx => tx.nonce == some n) = false := by
  intro chain
  induction chain with
  | nil => intro n i hres; simp [findTxBlock] at hres
  | cons blk rest ih =>
    intro n i hres
    by_cases hb : blk.txs.any (fun tx => tx.nonce == some n) = true
    · rw [findTxBlock, if_pos hb] at hres
      refine ⟨[], blk, rest, by simp, ?_, hb, by simp⟩
      exact (Option.some.injEq _ _ ▸ hres).symm
    · have hb' : blk.txs.any (fun tx => tx.nonce == some n) = false :=
        Bool.not_eq_true _ ▸ hb
      rw [findTxBlock, if_neg hb] at hres
      obtain ⟨pre, b2, suf, he, hi, ha, hp⟩ := ih n i hres
      refine ⟨blk :: pre, b2, suf, by simp [he], hi, ha, ?_⟩
      intro b hbm
      rcases List.mem_cons.mp hbm with hbm | hbm
      · rw [hbm]; exact hb'
      · exact hp b hbm

/-- C5: when checkDepth finds the audited nonce, it reports the head index
it was given, confirmations = headIndex - blockIndex, non-negative as long
as every chain block's index is at most the head index (the chain only
grows), and blockIndex is the index of the first block of the chain whose
transaction list contains the nonce. -/
theorem confirmation_depth (head_index : Int) (chain : List Block) (n : String)
    (bidx hidx conf : Int)
    (hgrow : ∀ b ∈ chain, b.index ≤ head_index)
    (hres : checkDepth head_index chain n = some (bidx, hidx, conf)) :
    hidx = head_index ∧ conf = head_index - bidx ∧ 0 ≤ conf ∧
    ∃ pre blk suf, chain = pre ++ blk :: suf ∧ bidx = blk.index ∧
      blk.txs.any (fun tx => tx.nonce == some n) = true ∧
      ∀ b ∈ pre, b.txs.any (fun tx => tx.nonce == some n) = false := by
  cases hf : findTxBlock chain n with
  | none => rw [checkDepth, hf] at hres; simp at hres
  | some i =>
    rw [checkDepth, hf] at hres
    simp only [Option.some.injEq, Prod.mk.injEq] at hres
    obtain ⟨h1, h2, h3⟩ := hres
    obtain ⟨pre, blk, suf, he, hi, ha, hp⟩ := findTxBlock_split chain n i hf
    have hmem : blk ∈ chain := by rw [he]; simp
    refine ⟨h2.symm, by omega, ?_, pre, blk, suf, he, by omega, ha, hp⟩
    have := hgrow blk hmem
    omega

/-- C5 witness: on the six-block chain with head index 5 and nonce "n1"
present only in B2, checkDepth reports blockIndex 2, headIndex 5 and
confirmations 3 = 5 - 2 ≥ 0. -/
theorem confirmation_depth_witness :
    (5 : Int) = 5 ∧ (3 : Int) = 5 - 2 ∧ (0 : Int) ≤ 3 ∧
    ∃ pre blk suf, auditChain = pre ++ blk :: suf ∧ (2 : Int) = blk.index ∧
      blk.txs.any (fun tx => tx.nonce == some "n1") = true ∧
      ∀ b ∈ pre, b.txs.any (fun tx => tx.nonce == some "n1") = false :=
  confirmation_depth 5 auditChain "n1" 2 5 3 (by decide) (by decide)

/-- C4: the proof-of-work check accepts a digest iff its leading
DIFFICULTY/4 (= 4, difficulty 16 bits) hexadecimal characters are all '0';
a digest whose first DIFFICULTY/4 - 1 characters are '0' followed by a
non-'0' character is rejected. -/
theorem difficulty_check (h : String) :
    (powAccepts h = true ↔
      h.data.take (DIFFICULTY / 4) = List.replicate (DIFFICULTY / 4) '0') ∧
    ∀ c rest, h.data = List.replicate (DIFFICULTY / 4 - 1) '0' ++ c :: rest →
      c ≠ '0' → powAccepts h = false := by
  have key : powAccepts h = true ↔
      h.data.take (DIFFICULTY / 4) = List.replicate (DIFFICULTY / 4) '0' := by
    rw [show powAccepts h =
      List.isPrefixOf (List.replicate (DIFFICULTY / 4) '0') h.data from rfl]
    rw [List.isPrefixOf_iff_prefix, List.prefix_iff_eq_take]
    rw [List.length_replicate]
    exact eq_comm
  refine ⟨key, ?_⟩
  intro c rest hdata hc
  cases hx : powAccepts h with
  | false => rfl
  | true =>
    have htake := key.mp hx
    rw [hdata] at htake
    rw [show List.replicate (DIFFICULTY / 4 - 1) '0' = ['0', '0', '0'] from rfl]
      at htake
    rw [show (DIFFICULTY / 4 : Nat) = 4 from rfl] at htake
    rw [show List.replicate 4 '0' = ['0', '0', '0', '0'] from rfl] at htake
    simp [List.take] at htake
    exact absurd htake hc

/-- dumpFields renders each field's value, keeping key and order. -/
theorem dumpFields_eq_map (l : List (String × Json)) :
    dumpFields l = l.map (fun kv => (kv.1, json_dumps kv.2)) := by
  induction l with
  | nil => rfl
  | cons kv rest ih => cases kv; simp [dumpFields, ih]

/-- Two permuted field lists with no duplicate keys sort identically. -/
theorem sortFields_eq_of_perm (l1 l2 : List (String × String))
    (hnd : (l1.map Prod.fst).Nodup) (hp : l1.Perm l2) :
    List.insertionSort keyLe l1 = List.insertionSort keyLe l2 := by
  have hperm : (List.insertionSort keyLe l1).Perm (List.insertionSort keyLe l2) :=
    (List.perm_insertionSort keyLe l1).trans
      (hp.trans (List.perm_insertionSort keyLe l2).symm)
  have hnd1 : ((List.insertionSort keyLe l1).map Prod.fst).Nodup :=
    (((List.perm_insertionSort keyLe l1).map Prod.fst).symm).nodup hnd
  have hnd2 : ((List.insertionSort keyLe l2).map Prod.fst).Nodup :=
    (((List.perm_insertionSort keyLe l2).map Prod.fst).symm).nodup (hp.map Prod.fst |>.nodup hnd)
  have hstrict1 : List.Pairwise keyLt (List.insertionSort keyLe l1) := by
    have hne := (List.pairwise_map).mp hnd1
    have hle := List.sorted_insertionSort keyLe l1
    exact (hle.and hne).imp (fun hx => lt_of_le_of_ne hx.1 hx.2)
  have hstrict2 : List.Pairwise keyLt (List.insertionSort keyLe l2) := by
    have hne := (List.pairwise_map).mp hnd2
    have hle := List.sorted_insertionSort keyLe l2
    exact (hle.and hne).imp (fun hx => lt_of_le_of_ne hx.1 hx.2)
  exact List.eq_of_perm_of_sorted hperm hstrict1 hstrict2

/-- C8: the Canonical Hasher is insensitive to field insertion order: two
objects holding the same fields (no duplicate keys) in any two orders
serialize, and therefore hash, identically. -/
theorem hash_determinism (l1 l2 : List (String × Json))
    (hnodup : (l1.map Prod.fst).Nodup) (hperm : l1.Perm l2) :
    hash_block (Json.obj l1) = hash_block (Json.obj l2) := by
  have hpf : (dumpFields l1).Perm (dumpFields l2) := by
    rw [dumpFields_eq_map, dumpFields_eq_map]
    exact hperm.map _
  have hndf : ((dumpFields l1).map Prod.fst).Nodup := by
    rw [dumpFields_eq_map, List.map_map]
    simpa [Function.comp] using hnodup
  have hsort := sortFields_eq_of_perm (dumpFields l1) (dumpFields l2) hndf hpf
  have hd : json_dumps (Json.obj l1) = json_dumps (Json.obj l2) := by
    simp [json_dumps, hsort]
  simp [hash_block, hd]

/-- C8 witness: the two insertion orders of a concrete two-field block
object hash to the same digest. -/
theorem hash_determinism_witness :
    hash_block (Json.obj [jsonF1, jsonF2]) = hash_block (Json.obj [jsonF2, jsonF1]) :=
  hash_determinism [jsonF1, jsonF2] [jsonF2, jsonF1] (by decide)
    (List.Perm.swap jsonF2 jsonF1 [])

/-- When the inner PoW loop exits with a digest that meets the difficulty
prefix (the found-block exit, not the stale-break exit), every boundary
staleness read it performed succeeded and reported the base head. -/
theorem powLoop_ok_checks (block : Block) (base : String) (env : MineEnv) :
    ∀ (f nonce tc : Nat) (h : String) (n tc1 : Nat),
      powLoop block base env f nonce tc = some (.ok (h, n, tc1)) →
      powAccepts h = true →
      tc ≤ tc1 ∧ ∀ j, tc ≤ j → j < tc1 →
        ∃ p, env.txpool j = some p ∧ p.1 = base := by
  intro f
  induction f with
  | zero => intro nonce tc h n tc1 hres _; simp [powLoop] at hres
  | succ f ih =>
    intro nonce tc h n tc1 hres hacc
    rw [powLoop] at hres
    by_cases hfound :
        powAccepts (hash_block (blockJson { block with nonce := nonce })) = true
    · rw [if_pos hfound] at hres
      simp only [Option.some.injEq, Except.ok.injEq, Prod.mk.injEq] at hres
      obtain ⟨_, _, htc⟩ := hres
      subst htc
      exact ⟨le_refl tc, fun j hj1 hj2 => absurd hj2 (by omega)⟩
    · rw [if_neg hfound] at hres
      by_cases hmod : (nonce + 1) % RECHECK_INTERVAL = 0
      · rw [if_pos hmod] at hres
        cases htx : env.txpool tc with
        | none => rw [htx] at hres; simp at hres
        | some p =>
          rw [htx] at hres
          obtain ⟨latest, ts⟩ := p
          dsimp only at hres
          by_cases hl : latest ≠ base
          · rw [if_pos hl] at hres
            simp only [Option.some.injEq, Except.ok.injEq, Prod.mk.injEq] at hres
            obtain ⟨hh, _, _⟩ := hres
            rw [← hh] at hacc
            exact absurd hacc (by simpa using hfound)
          · rw [if_neg hl] at hres
            have hbase : latest = base := by simpa using hl
            obtain ⟨hle, hall⟩ := ih (nonce + 1) (tc + 1) h n tc1 hres hacc
            refine ⟨by omega, fun j hj1 hj2 => ?_⟩
            rcases Nat.eq_or_lt_of_le hj1 with hj | hj
            · exact ⟨(latest, ts), by rw [← hj]; exact htx, hbase⟩
            · exact hall j (by omega) hj2
      · rw [if_neg hmod] at hres
        exact ih (nonce + 1) tc h n tc1 hres hacc

/-- C1: a PoW search attempt on a template whose prev_hash is H0 either
reports no block (fuel ran out, a staleness read raised, or the attempt was
discarded — the abort/restart outcomes), or it hands a block on for
submission and then every staleness check it performed, the boundary
checks and the final one alike, succeeded and reported the head digest H0;
contrapositively, an attempt one of whose checks reported a different head
digest never submits a block. -/
theorem staleness_abort (who H0 : String) (parent_index : Int) (env : MineEnv)
    (ifuel tc : Nat) :
    powAttempt (buildTemplate who H0 parent_index) H0 env ifuel tc = none ∨
    powAttempt (buildTemplate who H0 parent_index) H0 env ifuel tc =
      some (.error ()) ∨
    (∃ tc', powAttempt (buildTemplate who H0 parent_index) H0 env ifuel tc =
      some (.ok (none, tc'))) ∨
    (∃ blk tc1, powAttempt (buildTemplate who H0 parent_index) H0 env ifuel tc =
      some (.ok (some blk, tc1 + 1)) ∧ checksPassed env H0 tc tc1 = true) := by
  cases hp : powLoop (buildTemplate who H0 parent_index) H0 env ifuel 0 tc with
  | none =>
    left
    simp only [powAttempt, hp]
  | some e =>
    cases e with
    | error u =>
      cases u
      right; left
      simp only [powAttempt, hp]
    | ok t =>
      obtain ⟨h, nonce, tc1⟩ := t
      cases htx : env.txpool tc1 with
      | none =>
        right; left
        simp only [powAttempt, hp, htx]
      | some p =>
        obtain ⟨latest, ts⟩ := p
        by_cases hcond : latest ≠ H0 ∨ powAccepts h = false
        · right; right; left
          refine ⟨tc1 + 1, ?_⟩
          simp only [powAttempt, hp, htx]
          rw [if_pos hcond]
        · right; right; right
          push_neg at hcond
          obtain ⟨hlat, hnf⟩ := hcond
          have hacc : powAccepts h = true := Bool.ne_false_iff.mp hnf
          obtain ⟨hle, hall⟩ := powLoop_ok_checks
            (buildTemplate who H0 parent_index) H0 env ifuel 0 tc h nonce tc1 hp hacc
          refine ⟨{ buildTemplate who H0 parent_index with nonce := nonce },
            tc1, ?_, ?_⟩
          · simp only [powAttempt, hp, htx]
            rw [if_neg (by simp [hlat, hacc])]
          · unfold checksPassed
            rw [List.all_eq_true]
            intro j hj
            rw [List.mem_range'_1] at hj
            obtain ⟨hj1, hj2⟩ := hj
            rcases Nat.lt_or_ge j tc1 with hlt | hge
            · obtain ⟨q, hq, hq1⟩ := hall j hj1 hlt
              rw [hq]
              simpa using hq1
            · have hjeq : j = tc1 := by omega
              rw [hjeq, htx]
              simpa using hlat

/-- The only block a PoW attempt ever hands on for submission is its own
template with the found nonce written into it. -/
theorem powAttempt_submit_shape (block : Block) (base : String) (env : MineEnv)
    (ifuel tc : Nat) (blk : Block) (tc' : Nat)
    (hres : powAttempt block base env ifuel tc = some (.ok (some blk, tc'))) :
    ∃ nn, blk = { block with nonce := nn } := by
  unfold powAttempt at hres
  cases hp : powLoop block base env ifuel 0 tc with
  | none => rw [hp] at hres; simp at hres
  | some e =>
    rw [hp] at hres
    cases e with
    | error u => cases u; simp at hres
    | ok t =>
      obtain ⟨h, nonce, tc1⟩ := t
      dsimp only at hres
      cases htx : env.txpool tc1 with
      | none => rw [htx] at hres; simp at hres
      | some p =>
        rw [htx] at hres
        obtain ⟨latest, ts⟩ := p
        dsimp only at hres
        by_cases hcond : latest ≠ base ∨ powAccepts h = false
        · rw [if_pos hcond] at hres; simp at hres
        · rw [if_neg hcond] at hres
          simp only [Option.some.injEq, Except.ok.injEq, Prod.mk.injEq,
            Option.some.injEq] at hres
          exact ⟨nonce, hres.1.symm⟩

/-- C2: a PoW attempt run on the template the Mining Orchestrator builds
(empty transaction list, marker nice = who) either submits nothing, or the
block it hands on for submission has an empty transaction list and carries
the marker; no submitted block has both transactions and a marker. -/
theorem no_transfer_invariant (who head_hash : String) (parent_index : Int)
    (env : MineEnv) (ifuel tc : Nat) :
    powAttempt (buildTemplate who head_hash parent_index) head_hash env ifuel tc
      = none ∨
    powAttempt (buildTemplate who head_hash parent_index) head_hash env ifuel tc
      = some (.error ()) ∨
    (∃ tc', powAttempt (buildTemplate who head_hash parent_index) head_hash env
      ifuel tc = some (.ok (none, tc'))) ∨
    (∃ blk tc', powAttempt (buildTemplate who head_hash parent_index) head_hash
      env ifuel tc = some (.ok (some blk, tc')) ∧
      blk.txs = [] ∧ blk.nice = some who) := by
  cases hres : powAttempt (buildTemplate who head_hash parent_index) head_hash
      env ifuel tc with
  | none => exact Or.inl rfl
  | some e =>
    cases e with
    | error u => cases u; exact Or.inr (Or.inl rfl)
    | ok t =>
      obtain ⟨ob, tc'⟩ := t
      cases ob with
      | none => exact Or.inr (Or.inr (Or.inl ⟨tc', rfl⟩))
      | some blk =>
        obtain ⟨nn, hblk⟩ := powAttempt_submit_shape
          (buildTemplate who head_hash parent_index) head_hash env ifuel tc
          blk tc' hres
        refine Or.inr (Or.inr (Or.inr ⟨blk, tc', rfl, ?_, ?_⟩)) <;>
          rw [hblk] <;> rfl

/-- C3: on a pool snapshot containing a transaction that touches the target
identity (src or dst equals who), the orchestrator's iteration reduces to
waiting and re-snapshotting: no parent lookup, no template construction and
no PoW attempt happen for that snapshot, and the run continues exactly as a
fresh run on the next snapshot. -/
theorem policy_enforcement (who : String) (env : MineEnv) (ifuel fuel tc pc : Nat)
    (head_hash : String) (txs : List Tx)
    (hsnap : env.txpool tc = some (head_hash, txs))
    (htaint : touchesWho who txs = true) :
    mine_empty_with_nice who env ifuel (fuel + 1) tc pc =
      mine_empty_with_nice who env ifuel fuel (tc + 1) pc := by
  rw [mine_empty_with_nice, hsnap]
  dsimp only
  rw [if_pos htaint]

/-- C3 witness: with a concrete tainted first snapshot, one orchestrator
iteration is exactly the retry on the next snapshot. -/
theorem policy_enforcement_witness :
    mine_empty_with_nice "hacker" wTaintEnv 5 2 0 0 =
      mine_empty_with_nice "hacker" wTaintEnv 5 1 1 0 :=
  policy_enforcement "hacker" wTaintEnv 5 1 0 0 "H0" [wTaintTx] rfl (by decide)

/-- C9 counterexample: a transient network fault on a pool-snapshot fetch
is not recovered locally — the orchestrator run ends with the raised
exception escaping mine_empty_with_nice instead of retrying (here the
environment faults every snapshot read; the run had fuel left). -/
theorem snapshot_fault_terminates_cex :
    mine_empty_with_nice "hacker" wFaultEnv 5 3 0 0 = some (Except.error ()) :=
  rfl

/-- C9 (amended): a transient fault on a pool-snapshot fetch inside the
Mining Orchestrator is not retried: get_txpool's raise_for_status/transport
exception propagates and terminates mine_empty_with_nice with that
exception, whatever fuel remains. -/
theorem snapshot_fault_raises (who : String) (env : MineEnv)
    (ifuel fuel tc pc : Nat) (hfault : env.txpool tc = none) :
    mine_empty_with_nice who env ifuel (fuel + 1) tc pc =
      some (Except.error ()) := by
  rw [mine_empty_with_nice, hfault]

/-- C9 witness: the amended claim at a concrete faulting environment. -/
theorem snapshot_fault_raises_witness :
    mine_empty_with_nice "hacker" wFaultEnv 5 1 0 0 = some (Except.error ()) :=
  snapshot_fault_raises "hacker" wFaultEnv 5 0 0 0 rfl

/-- C10: mine_empty_with_nice can only ever return True — each run either
runs out of fuel, ends with a raised exception, or returns True, and in the
True case some block submission received HTTP status 200; it never returns
False, so the rejection branch of mine_nice_fast (mine_fast.py lines
127-128) that handles a False result is unreachable. -/
theorem returns_true_only (who : String) (env : MineEnv) (ifuel : Nat) :
    ∀ (fuel tc pc : Nat),
      mine_empty_with_nice who env ifuel fuel tc pc = none ∨
      mine_empty_with_nice who env ifuel fuel tc pc = some (.error ()) ∨
      (mine_empty_with_nice who env ifuel fuel tc pc = some (.ok true) ∧
        ∃ k, env.post k = some 200) := by
  intro fuel
  induction fuel with
  | zero => intro tc pc; exact Or.inl rfl
  | succ fuel ih =>
    intro tc pc
    rw [mine_empty_with_nice]
    cases htx : env.txpool tc with
    | none => exact Or.inr (Or.inl rfl)
    | some s =>
      obtain ⟨head_hash, txs⟩ := s
      dsimp only
      by_cases ht : touchesWho who txs = true
      · rw [if_pos ht]
        exact ih (tc + 1) pc
      · rw [if_neg ht]
        cases hbi : env.blockIndexOf head_hash with
        | none => exact Or.inr (Or.inl rfl)
        | some parent_index =>
          dsimp only
          cases hpa : powAttempt (buildTemplate who head_hash parent_index)
              head_hash env ifuel (tc + 1) with
          | none => exact Or.inl rfl
          | some e =>
            cases e with
            | error u => cases u; exact Or.inr (Or.inl rfl)
            | ok t =>
              obtain ⟨ob, tc'⟩ := t
              cases ob with
              | none => exact ih tc' pc
              | some blk =>
                dsimp only
                cases hpost : env.post pc with
                | none => exact Or.inr (Or.inl rfl)
                | some status =>
                  dsimp only
                  by_cases hs : status = 200
                  · rw [if_pos hs]
                    exact Or.inr (Or.inr ⟨rfl, pc, by rw [hpost, hs]⟩)
                  · rw [if_neg hs]
                    exact ih tc' (pc + 1)
